import Mathlib

/-!
Verification of the blended distillation profile builder (`profile_builder.py`).

The core pipeline is embedded shallowly over `ℚ`:
temperatures and recoveries are exact rationals, pandas tables become lists of
row structures, and the library calls that can raise (`scipy.interpolate.pchip`,
whose `prepare_input` validation rejects inputs with fewer than two points or
non-increasing abscissae, and the bare `raise ValueError` in `__init__`) become
`Except` values carrying the Python exception together with its message.
-/

namespace ProfileBuilder

/-- Python exceptions surfaced by `profile_builder.py` and the scipy calls it makes:
every failure in the core is a `ValueError`, distinguished by its message. -/
inductive PyError where
  | valueError (msg : String)
  deriving DecidableEq, Repr

/-- One cleaned observation row of a distillation profile table: after
`load_processed_profile` the `recovery` column is an integer percent and
`temperature` a (finite) real, modelled as a rational. -/
structure Obs where
  recovery : ℤ
  temperature : ℚ
  deriving DecidableEq, Repr

/-- pandas `Series.min` over a nonempty column. On an empty column pandas returns
NaN instead; that NaN has no rational value, and the paths on which the program
consults it are modelled where the NaN first causes an effect — `math.ceil(NaN)`
raises, see `get_discrete_temperature_range_checked` — so the 0 returned on `[]`
here is never the value of any modelled execution. -/
def colMin : List ℚ → ℚ
  | [] => 0
  | x :: xs => xs.foldl min x

/-- pandas `Series.max` over a nonempty column; NaN on an empty column is handled
as for `colMin` (the `math.floor(NaN)` crash lives in
`get_discrete_temperature_range_checked`, never in this value). -/
def colMax : List ℚ → ℚ
  | [] => 0
  | x :: xs => xs.foldl max x

/-- pandas `Series.max` over an integer column, junk value 0 on an empty column. -/
def colMaxZ : List ℤ → ℤ
  | [] => 0
  | x :: xs => xs.foldl max x

/-- Helper for `intRange`: the list `[a, a+1, ..., a+n-1]`. -/
def intRangeAux (a : ℤ) : ℕ → List ℤ
  | 0 => []
  | n + 1 => a :: intRangeAux (a + 1) n

/-- `np.arange(a, b, 1)` for integer bounds: the half-open integer range `[a, b)`. -/
def intRange (a b : ℤ) : List ℤ := intRangeAux a (b - a).toNat

/-- `get_discrete_temperature_range`: integer grid from `math.ceil` of the minimum
observed temperature to `math.floor` of the maximum, exclusive (`np.arange`). -/
def get_discrete_temperature_range (profile : List Obs) : List ℤ :=
  intRange ⌈colMin (profile.map (·.temperature))⌉ ⌊colMax (profile.map (·.temperature))⌋

/-- `get_discrete_temperature_range` as the program executes it inside
`get_recovery_interpolation`: on an empty (fully cleaned-away) profile,
`Series.min`/`Series.max` of the temperature column are NaN, and `math.ceil(NaN)`
raises `ValueError("cannot convert float NaN to integer")`; on a nonempty profile
the grid is the total function above. -/
def get_discrete_temperature_range_checked (profile : List Obs) :
    Except PyError (List ℤ) :=
  match profile with
  | [] => .error (.valueError "cannot convert float NaN to integer")
  | _ :: _ => .ok (get_discrete_temperature_range profile)

/-- `get_global_temperature_range`: integer grid from `math.ceil` of the smaller
of the two minima to `math.floor` of the larger of the two maxima, exclusive.
(`run` reaches this call only after both per-curve fits succeeded, so both profiles
are nonempty here and the empty-column NaN path cannot arise.) -/
def get_global_temperature_range (df1 df2 : List Obs) : List ℤ :=
  intRange ⌈min (colMin (df1.map (·.temperature))) (colMin (df2.map (·.temperature)))⌉
    ⌊max (colMax (df1.map (·.temperature))) (colMax (df2.map (·.temperature)))⌋

/-- `np.sign` on an exact rational. -/
def sgn (q : ℚ) : ℤ := if 0 < q then 1 else if q < 0 then -1 else 0

/-- Slope of the secant through two points (`mk` entries in scipy's
`PchipInterpolator._find_derivatives`). -/
def slope (p q : ℚ × ℚ) : ℚ := (q.2 - p.2) / (q.1 - p.1)

/-- Interior derivative rule of `PchipInterpolator._find_derivatives`: zero when the
neighbouring secant slopes differ in sign or one vanishes, otherwise the weighted
harmonic mean `1 / ((w1/mp + w2/m) / (w1 + w2))` with `w1 = 2h + hp`, `w2 = h + 2hp`. -/
def interiorDeriv (hp mp h m : ℚ) : ℚ :=
  if sgn mp ≠ sgn m ∨ m = 0 ∨ mp = 0 then 0
  else
    let w1 := 2 * h + hp
    let w2 := h + 2 * hp
    1 / ((w1 / mp + w2 / m) / (w1 + w2))

/-- `PchipInterpolator._edge_case`: one-sided three-point derivative estimate,
zeroed when its sign disagrees with the first secant slope, clamped to `3*m0`
when the two secant slopes disagree in sign and the estimate is too large. -/
def edgeCase (h0 h1 m0 m1 : ℚ) : ℚ :=
  let d := ((2 * h0 + h1) * m0 - h0 * m1) / (h0 + h1)
  if sgn d ≠ sgn m0 then 0
  else if sgn m0 ≠ sgn m1 ∧ 3 * |m0| < |d| then 3 * m0
  else d

/-- Derivatives at the interior points `p1, ..., p(n-2)`: walking a three-point
window `a, b, c :: rest` and emitting the interior rule for the middle point. -/
def midDerivs : ℚ × ℚ → ℚ × ℚ → List (ℚ × ℚ) → List ℚ
  | _, _, [] => []
  | a, b, c :: rest =>
      interiorDeriv (b.1 - a.1) (slope a b) (c.1 - b.1) (slope b c) :: midDerivs b c rest

/-- Derivative at the last point: `_edge_case(hk[-1], hk[-2], mk[-1], mk[-2])`,
read off from the reversed point list. -/
def edgeLast (pts : List (ℚ × ℚ)) : ℚ :=
  match pts.reverse with
  | q0 :: q1 :: q2 :: _ => edgeCase (q0.1 - q1.1) (q1.1 - q2.1) (slope q1 q0) (slope q2 q1)
  | _ => 0

/-- All PCHIP endpoint derivatives (`_find_derivatives`): with exactly two points the
interpolant is the straight line (both derivatives equal the secant slope); with three
or more, an edge estimate at each end and the interior rule in between. -/
def pchipDerivs : List (ℚ × ℚ) → List ℚ
  | [p0, p1] => [slope p0 p1, slope p0 p1]
  | p0 :: p1 :: p2 :: rest =>
      edgeCase (p1.1 - p0.1) (p2.1 - p1.1) (slope p0 p1) (slope p1 p2)
        :: (midDerivs p0 p1 (p2 :: rest) ++ [edgeLast (p0 :: p1 :: p2 :: rest)])
  | _ => []

/-- Pair each point with its derivative, giving the segment knot list. -/
def attachDerivs : List (ℚ × ℚ) → List ℚ → List (ℚ × ℚ × ℚ)
  | (x, y) :: ps, d :: ds => (x, y, d) :: attachDerivs ps ds
  | _, _ => []

/-- One cubic segment in the local power-basis form stored by scipy's
`CubicHermiteSpline`/`PPoly`: coefficients `c0 = t/h`, `c1 = (m - d0)/h - t`,
`c2 = d0`, `c3 = y0` with `t = (d0 + d1 - 2m)/h`, evaluated at `u = x - x0`. -/
def hermite (x0 y0 d0 x1 y1 d1 t : ℚ) : ℚ :=
  let h := x1 - x0
  let m := (y1 - y0) / h
  let tt := (d0 + d1 - 2 * m) / h
  let c0 := tt / h
  let c1 := (m - d0) / h - tt
  let u := t - x0
  ((c0 * u + c1) * u + d0) * u + y0

/-- `PPoly` evaluation: locate the interval whose left knot is the largest one `≤ t`
(clipped to the first/last interval, so querying outside the knot span extrapolates
with the corresponding edge polynomial) and evaluate its cubic. -/
def evalSegments : List (ℚ × ℚ × ℚ) → ℚ → ℚ
  | (x0, y0, d0) :: (x1, y1, d1) :: rest, t =>
      if t < x1 ∨ rest = [] then hermite x0 y0 d0 x1 y1 d1 t
      else evalSegments ((x1, y1, d1) :: rest) t
  | _, _ => 0

/-- `scipy.interpolate.pchip(x, y)`: `prepare_input` first raises `ValueError` when
fewer than two points are supplied, then raises `ValueError` unless the abscissae
are strictly increasing; otherwise the fit succeeds. -/
def pchipFit (pts : List (ℚ × ℚ)) : Except PyError (List (ℚ × ℚ × ℚ)) :=
  if pts.length < 2 then .error (.valueError "`x` must contain at least 2 elements.")
  else if ¬ List.Chain' (· < ·) (pts.map Prod.fst) then
    .error (.valueError "`x` must be strictly increasing sequence.")
  else .ok (attachDerivs pts (pchipDerivs pts))

/-- `get_recovery_interpolation`, in the source's evaluation order: the discrete
temperature range is computed first (line 117, raising `math.ceil`'s NaN-conversion
`ValueError` on an empty profile), then `pchip` fits recovery as a function of
temperature (raising its own `ValueError`s on fewer than two points or
non-increasing temperatures), and the fit is sampled at every grid integer. -/
def get_recovery_interpolation (profile : List Obs) : Except PyError (List (ℤ × ℚ)) := do
  let temperature_range ← get_discrete_temperature_range_checked profile
  let segs ← pchipFit (profile.map fun o => (o.temperature, (o.recovery : ℚ)))
  return temperature_range.map fun t => (t, evalSegments segs (t : ℚ))

/-- Exact-index lookup used by the pandas `join` on the `temperature` index. -/
def lookupTemp (interp : List (ℤ × ℚ)) (t : ℤ) : Option ℚ :=
  (interp.find? fun p => p.1 == t).map (·.2)

/-- One row of the merged (aligned) table before the blended column is added. -/
structure PairRow where
  temperature : ℤ
  recovery : ℚ
  recovery_2 : ℚ
  deriving DecidableEq, Repr

/-- `merge_interpolations_over_range` walk: at each grid temperature, take the joined
value if the curve has one there (`join`), otherwise the most recent value seen
(`fillna(method='ffill')`), and 0 when no value has been seen yet (`fillna(value=0)`). -/
def mergeAux (i1 i2 : List (ℤ × ℚ)) : Option ℚ → Option ℚ → List ℤ → List PairRow
  | _, _, [] => []
  | l1, l2, t :: ts =>
      ⟨t, ((lookupTemp i1 t).orElse fun _ => l1).getD 0,
          ((lookupTemp i2 t).orElse fun _ => l2).getD 0⟩ ::
        mergeAux i1 i2 ((lookupTemp i1 t).orElse fun _ => l1)
          ((lookupTemp i2 t).orElse fun _ => l2) ts

/-- `merge_interpolations_over_range`: join both interpolations onto the grid index,
forward-fill each recovery column, then replace the leading missing values by 0. -/
def merge_interpolations_over_range (interp1 interp2 : List (ℤ × ℚ))
    (temperature_range : List ℤ) : List PairRow :=
  mergeAux interp1 interp2 none none temperature_range

/-- `self.profile_percentages`, fixed in `__init__`. -/
def profile_percentages : List ℤ := [5, 10, 20, 30, 40, 50, 60, 70, 80, 90, 95, 99]

/-- One row of the final blended profile; `none` models the `np.nan` written for
recovery percentiles above the achievable maximum. -/
structure BlendRow where
  recovery : ℤ
  temperature : Option ℚ
  deriving DecidableEq, Repr

/-- The blended recovery column `share1 * recovery + share2 * recovery_2`. -/
def blendedColumn (pair : List PairRow) (share1 share2 : ℚ) : List ℚ :=
  pair.map fun r => share1 * r.recovery + share2 * r.recovery_2

/-- `recovery_max = df1['recovery'].max() * share1 + df2['recovery'].max() * share2`. -/
def recoveryMax (df1 df2 : List Obs) (share1 share2 : ℚ) : ℚ :=
  (colMaxZ (df1.map (·.recovery)) : ℚ) * share1 + (colMaxZ (df2.map (·.recovery)) : ℚ) * share2

/-- `compute_blended_profile`: add the blended column, fit temperature as a PCHIP
function of blended recovery, evaluate at the fixed percentiles, and blank out
(`np.nan`, here `none`) every percentile strictly above `recovery_max`. -/
def compute_blended_profile (pair : List PairRow) (share1 share2 : ℚ)
    (df1 df2 : List Obs) : Except PyError (List BlendRow) :=
  (pchipFit ((blendedColumn pair share1 share2).zip
      (pair.map fun r => (r.temperature : ℚ)))).map fun segs =>
    profile_percentages.map fun p =>
      { recovery := p
        temperature :=
          if recoveryMax df1 df2 share1 share2 < (p : ℚ) then none
          else some (evalSegments segs (p : ℚ)) }

/-- `run` (with the file store and web refresh treated as the external collaborators
delivering the two cleaned profiles): fit both curves, merge over the global grid,
blend and invert. -/
def run (profile1 profile2 : List Obs) (volume1 volume2 : ℚ) :
    Except PyError (List BlendRow) := do
  let recovery1 ← get_recovery_interpolation profile1
  let recovery2 ← get_recovery_interpolation profile2
  let global_range := get_global_temperature_range profile1 profile2
  let paired_recovery := merge_interpolations_over_range recovery1 recovery2 global_range
  compute_blended_profile paired_recovery volume1 volume2 profile1 profile2

/-- The builder object constructed by `__init__`. -/
structure BlendedProfileBuilder where
  code1 : String
  code2 : String
  volume1 : ℚ
  volume2 : ℚ
  deriving DecidableEq, Repr

/-- `BlendedProfileBuilder.__init__`: raises `ValueError` when either volume share
lies outside the open interval (0, 1); the share sum is never inspected. -/
def BlendedProfileBuilder.init (code1 code2 : String) (volume1 volume2 : ℚ) :
    Except PyError BlendedProfileBuilder :=
  if volume1 ≤ 0 ∨ 1 ≤ volume1 ∨ volume2 ≤ 0 ∨ 1 ≤ volume2 then .error (.valueError "")
  else .ok ⟨code1, code2, volume1, volume2⟩

/-! ### Basic facts about the integer grids -/

theorem mem_intRangeAux {t : ℤ} : ∀ (n : ℕ) (a : ℤ), t ∈ intRangeAux a n ↔ a ≤ t ∧ t < a + n := by
  intro n
  induction n with
  | zero => intro a; simp [intRangeAux]
  | succ k ih => intro a; simp [intRangeAux, ih (a + 1)]; omega

theorem mem_intRange {a b t : ℤ} : t ∈ intRange a b ↔ a ≤ t ∧ t < b := by
  unfold intRange
  rw [mem_intRangeAux]
  omega

theorem chain'_intRangeAux : ∀ (n : ℕ) (a : ℤ),
    List.Chain' (fun s u => u = s + 1) (intRangeAux a n) := by
  intro n
  induction n with
  | zero => intro a; simp [intRangeAux]
  | succ k ih =>
      intro a
      cases k with
      | zero => simp [intRangeAux]
      | succ m => exact List.Chain'.cons rfl (ih (a + 1))

theorem chain'_intRange (a b : ℤ) : List.Chain' (fun s u => u = s + 1) (intRange a b) :=
  chain'_intRangeAux _ a

/-- C5: the per-curve sampling grid is the contiguous step-1 integer range from the
ceiling of the minimum observed temperature to the floor of the maximum, exclusive of
the floor endpoint; the joint grid is the contiguous step-1 integer range from
`ceil(min(minA, minB))` to `floor(max(maxA, maxB))`, half-open, and it contains every
point of each curve's native grid. -/
theorem grid_correctness (profile df1 df2 : List Obs) (t : ℤ) :
    (t ∈ get_discrete_temperature_range profile ↔
      ⌈colMin (profile.map (·.temperature))⌉ ≤ t ∧
        t < ⌊colMax (profile.map (·.temperature))⌋) ∧
    List.Chain' (fun s u => u = s + 1) (get_discrete_temperature_range profile) ∧
    (t ∈ get_global_temperature_range df1 df2 ↔
      ⌈min (colMin (df1.map (·.temperature))) (colMin (df2.map (·.temperature)))⌉ ≤ t ∧
        t < ⌊max (colMax (df1.map (·.temperature))) (colMax (df2.map (·.temperature)))⌋) ∧
    List.Chain' (fun s u => u = s + 1) (get_global_temperature_range df1 df2) ∧
    (t ∈ get_discrete_temperature_range df1 → t ∈ get_global_temperature_range df1 df2) ∧
    (t ∈ get_discrete_temperature_range df2 → t ∈ get_global_temperature_range df1 df2) := by
  refine ⟨mem_intRange, chain'_intRange _ _, mem_intRange, chain'_intRange _ _, ?_, ?_⟩
  · intro h
    unfold get_discrete_temperature_range at h
    unfold get_global_temperature_range
    rw [mem_intRange] at h ⊢
    have h1 : ⌈min (colMin (df1.map (·.temperature))) (colMin (df2.map (·.temperature)))⌉ ≤
        ⌈colMin (df1.map (·.temperature))⌉ := Int.ceil_le_ceil (min_le_left _ _)
    have h2 : ⌊colMax (df1.map (·.temperature))⌋ ≤
        ⌊max (colMax (df1.map (·.temperature))) (colMax (df2.map (·.temperature)))⌋ :=
      Int.floor_le_floor (le_max_left _ _)
    omega
  · intro h
    unfold get_discrete_temperature_range at h
    unfold get_global_temperature_range
    rw [mem_intRange] at h ⊢
    have h1 : ⌈min (colMin (df1.map (·.temperature))) (colMin (df2.map (·.temperature)))⌉ ≤
        ⌈colMin (df2.map (·.temperature))⌉ := Int.ceil_le_ceil (min_le_right _ _)
    have h2 : ⌊colMax (df2.map (·.temperature))⌋ ≤
        ⌊max (colMax (df1.map (·.temperature))) (colMax (df2.map (·.temperature)))⌋ :=
      Int.floor_le_floor (le_max_right _ _)
    omega

/-- C9: the builder constructor raises `ValueError` exactly when one of the two
volume shares lies outside the open interval (0, 1); any share pair inside (0, 1)
is accepted, whether or not the shares sum to 1. -/
theorem init_share_validation (code1 code2 : String) (volume1 volume2 : ℚ) :
    (BlendedProfileBuilder.init code1 code2 volume1 volume2 = .error (.valueError "") ↔
      ¬(0 < volume1 ∧ volume1 < 1 ∧ 0 < volume2 ∧ volume2 < 1)) ∧
    ((∃ b, BlendedProfileBuilder.init code1 code2 volume1 volume2 = .ok b) ↔
      0 < volume1 ∧ volume1 < 1 ∧ 0 < volume2 ∧ volume2 < 1) := by
  unfold BlendedProfileBuilder.init
  by_cases h : volume1 ≤ 0 ∨ 1 ≤ volume1 ∨ volume2 ≤ 0 ∨ 1 ≤ volume2
  · rw [if_pos h]
    have hP : ¬(0 < volume1 ∧ volume1 < 1 ∧ 0 < volume2 ∧ volume2 < 1) := by
      intro hc
      rcases h with h | h | h | h <;> linarith [hc.1, hc.2.1, hc.2.2.1, hc.2.2.2]
    exact ⟨⟨fun _ => hP, fun _ => rfl⟩,
      ⟨fun ⟨b, hb⟩ => absurd hb (by simp), fun hp => absurd hp hP⟩⟩
  · rw [if_neg h]
    push_neg at h
    exact ⟨⟨fun hc => absurd hc (by simp), fun hnp => absurd h hnp⟩,
      ⟨fun _ => h, fun _ => ⟨_, rfl⟩⟩⟩

theorem exceptMap_eq_ok {α β γ : Type} {f : α → β} {e : Except γ α} {b : β} :
    e.map f = .ok b ↔ ∃ a, e = .ok a ∧ f a = b := by
  cases e <;> simp [Except.map]

/-- C4: at every grid point the blended recovery equals
`shareA * recoveryA + shareB * recoveryB`, computed from the raw shares (no
renormalization, also when the shares do not sum to 1), hence in particular it
agrees with that linear combination within the 1e-9 tolerance. -/
theorem blend_linearity (pair : List PairRow) (share1 share2 : ℚ) (i : ℕ)
    (hb : i < (blendedColumn pair share1 share2).length) (hp : i < pair.length) :
    (blendedColumn pair share1 share2).get ⟨i, hb⟩ =
      share1 * (pair.get ⟨i, hp⟩).recovery + share2 * (pair.get ⟨i, hp⟩).recovery_2 ∧
    |(blendedColumn pair share1 share2).get ⟨i, hb⟩ -
        (share1 * (pair.get ⟨i, hp⟩).recovery + share2 * (pair.get ⟨i, hp⟩).recovery_2)| ≤
      1 / 1000000000 := by
  have he : (blendedColumn pair share1 share2).get ⟨i, hb⟩ =
      share1 * (pair.get ⟨i, hp⟩).recovery + share2 * (pair.get ⟨i, hp⟩).recovery_2 := by
    simp [blendedColumn]
  exact ⟨he, by rw [he]; simp⟩

/-- Witness for C4 at a concrete merged row (3, 5) with shares 1/4 and 1/4, which do
not sum to 1 and are still used raw. -/
theorem blend_linearity_witness :
    (blendedColumn [⟨0, 3, 5⟩] (1/4) (1/4)).get ⟨0, by decide⟩ =
      (1/4) * (([⟨0, 3, 5⟩] : List PairRow).get ⟨0, by decide⟩).recovery +
        (1/4) * (([⟨0, 3, 5⟩] : List PairRow).get ⟨0, by decide⟩).recovery_2 ∧
    |(blendedColumn [⟨0, 3, 5⟩] (1/4) (1/4)).get ⟨0, by decide⟩ -
        ((1/4) * (([⟨0, 3, 5⟩] : List PairRow).get ⟨0, by decide⟩).recovery +
          (1/4) * (([⟨0, 3, 5⟩] : List PairRow).get ⟨0, by decide⟩).recovery_2)| ≤
      1 / 1000000000 :=
  blend_linearity [⟨0, 3, 5⟩] (1/4) (1/4) 0 (by decide) (by decide)

/-- C8 counterexample: a cleaned observation set with zero rows (every row dropped in
cleaning) does not reach the insufficient-data check at all — the sampling-grid
computation runs first and `math.ceil` of the NaN column minimum raises an unrelated
`ValueError("cannot convert float NaN to integer")`, i.e. exactly the "crash with an
unrelated error" the claim excludes. -/
theorem insufficient_data_empty_counterexample :
    get_recovery_interpolation ([] : List Obs) =
      .error (.valueError "cannot convert float NaN to integer") := rfl

/-- C8 (amended): a cleaned observation set with exactly one row makes the curve fit
fail with scipy's dedicated insufficient-data `ValueError` (the error the spec names
`InsufficientDataError`), not silently and not with an unrelated error; only the
zero-row case crashes earlier, in the grid computation. -/
theorem insufficient_data_error (profile : List Obs) (h : profile.length = 1) :
    get_recovery_interpolation profile =
      .error (.valueError "`x` must contain at least 2 elements.") := by
  rcases profile with _ | ⟨o, _ | ⟨o2, rest⟩⟩
  · simp at h
  · unfold get_recovery_interpolation
    rw [show get_discrete_temperature_range_checked [o] =
      .ok (get_discrete_temperature_range [o]) from rfl]
    simp only [Bind.bind, Except.bind]
    unfold pchipFit
    rw [if_pos (by simp)]
  · simp at h

/-- Witness for C8: a single-row observation table. -/
theorem insufficient_data_error_witness :
    get_recovery_interpolation [⟨50, 100⟩] =
      .error (.valueError "`x` must contain at least 2 elements.") :=
  insufficient_data_error [⟨50, 100⟩] rfl

/-- C1: when percentile extraction succeeds, `recovery_max` is the share-weighted sum
of the two source tables' maximum observed recovery percents, every target percentile
strictly above it is reported with temperature "undefined" (`none`), and every target
percentile at or below it is reported with a finite temperature (`some`). -/
theorem recovery_cap (pair : List PairRow) (share1 share2 : ℚ) (df1 df2 : List Obs)
    (res : List BlendRow)
    (h : compute_blended_profile pair share1 share2 df1 df2 = .ok res) :
    recoveryMax df1 df2 share1 share2 =
      (colMaxZ (df1.map (·.recovery)) : ℚ) * share1 +
        (colMaxZ (df2.map (·.recovery)) : ℚ) * share2 ∧
    ∀ row ∈ res,
      (row.temperature = none ↔ recoveryMax df1 df2 share1 share2 < (row.recovery : ℚ)) ∧
      (row.temperature.isSome = true ↔
        (row.recovery : ℚ) ≤ recoveryMax df1 df2 share1 share2) := by
  refine ⟨rfl, ?_⟩
  unfold compute_blended_profile at h
  rw [exceptMap_eq_ok] at h
  obtain ⟨segs, -, rfl⟩ := h
  intro row hrow
  obtain ⟨p, -, rfl⟩ := List.mem_map.mp hrow
  by_cases hc : recoveryMax df1 df2 share1 share2 < (p : ℚ)
  · simp [hc, le_of_lt, not_le.mpr hc]
  · simp [hc, not_lt.mp hc]

/-- Witness for C1: the spec's cap scenario, maxA = 95, maxB = 90, both shares 1/2
(so `recovery_max = 92.5`); percentiles 95 and 99 come out "undefined" and all
others finite. -/
theorem recovery_cap_witness :
    recoveryMax [⟨0, 0⟩, ⟨95, 100⟩] [⟨0, 0⟩, ⟨90, 100⟩] (1/2) (1/2) =
      (colMaxZ (([⟨0, 0⟩, ⟨95, 100⟩] : List Obs).map (·.recovery)) : ℚ) * (1/2) +
        (colMaxZ (([⟨0, 0⟩, ⟨90, 100⟩] : List Obs).map (·.recovery)) : ℚ) * (1/2) ∧
    ∀ row ∈ ([⟨5, some (200/37)⟩, ⟨10, some (400/37)⟩, ⟨20, some (800/37)⟩,
        ⟨30, some (1200/37)⟩, ⟨40, some (1600/37)⟩, ⟨50, some (2000/37)⟩,
        ⟨60, some (2400/37)⟩, ⟨70, some (2800/37)⟩, ⟨80, some (3200/37)⟩,
        ⟨90, some (3600/37)⟩, ⟨95, none⟩, ⟨99, none⟩] : List BlendRow),
      (row.temperature = none ↔
        recoveryMax [⟨0, 0⟩, ⟨95, 100⟩] [⟨0, 0⟩, ⟨90, 100⟩] (1/2) (1/2) <
          (row.recovery : ℚ)) ∧
      (row.temperature.isSome = true ↔
        (row.recovery : ℚ) ≤
          recoveryMax [⟨0, 0⟩, ⟨95, 100⟩] [⟨0, 0⟩, ⟨90, 100⟩] (1/2) (1/2)) :=
  recovery_cap [⟨0, 0, 0⟩, ⟨100, 95, 90⟩] (1/2) (1/2)
    [⟨0, 0⟩, ⟨95, 100⟩] [⟨0, 0⟩, ⟨90, 100⟩] _
    (by norm_num [compute_blended_profile, pchipFit, blendedColumn, pchipDerivs,
      attachDerivs, slope, evalSegments, hermite, recoveryMax, colMaxZ,
      profile_percentages, Except.map, List.zip])

/-- C2 (amended): the inversion step succeeds iff the merged table has at least 2 rows
and its blended recovery column is strictly increasing; otherwise it fails with a
scipy `ValueError` (the failure the spec names `DegenerateBlendError`). -/
theorem inversion_success_iff (pair : List PairRow) (share1 share2 : ℚ)
    (df1 df2 : List Obs) :
    (∃ res, compute_blended_profile pair share1 share2 df1 df2 = .ok res) ↔
      2 ≤ pair.length ∧ List.Chain' (· < ·) (blendedColumn pair share1 share2) := by
  unfold compute_blended_profile pchipFit
  have hlen : ((blendedColumn pair share1 share2).zip
      (pair.map fun r => (r.temperature : ℚ))).length = pair.length := by
    simp [blendedColumn]
  have hfst : ((blendedColumn pair share1 share2).zip
        (pair.map fun r => (r.temperature : ℚ))).map Prod.fst =
      blendedColumn pair share1 share2 :=
    List.map_fst_zip _ _ (by simp [blendedColumn])
  rw [hlen, hfst]
  by_cases h2 : pair.length < 2
  · rw [if_pos h2]
    simp only [Except.map]
    constructor
    · rintro ⟨res, hres⟩; exact absurd hres (by simp)
    · intro hc; omega
  · rw [if_neg h2]
    by_cases hc : List.Chain' (· < ·) (blendedColumn pair share1 share2)
    · rw [if_neg (not_not_intro hc)]
      exact ⟨fun _ => ⟨by omega, hc⟩, fun _ => ⟨_, rfl⟩⟩
    · rw [if_pos hc]
      constructor
      · rintro ⟨res, hres⟩; exact absurd hres (by simp [Except.map])
      · rintro ⟨-, h⟩; exact absurd h hc

/-- C2 counterexample: a merged table whose blended column is [0, 0, 1] carries two
distinct blended recovery values, yet inversion fails (duplicate abscissa) instead of
succeeding as the claim requires for curves with at least 2 distinct values. -/
theorem inversion_distinct_values_counterexample :
    blendedColumn [⟨0, 0, 0⟩, ⟨1, 0, 0⟩, ⟨2, 1, 1⟩] (1/2) (1/2) = [0, 0, 1] ∧
    ((0 : ℚ) ∈ blendedColumn [⟨0, 0, 0⟩, ⟨1, 0, 0⟩, ⟨2, 1, 1⟩] (1/2) (1/2) ∧
      (1 : ℚ) ∈ blendedColumn [⟨0, 0, 0⟩, ⟨1, 0, 0⟩, ⟨2, 1, 1⟩] (1/2) (1/2) ∧
      (0 : ℚ) ≠ 1) ∧
    compute_blended_profile [⟨0, 0, 0⟩, ⟨1, 0, 0⟩, ⟨2, 1, 1⟩] (1/2) (1/2)
        [⟨0, 0⟩, ⟨1, 1⟩] [⟨0, 0⟩, ⟨1, 1⟩] =
      .error (.valueError "`x` must be strictly increasing sequence.") := by
  refine ⟨by norm_num [blendedColumn], ⟨by norm_num [blendedColumn],
    by norm_num [blendedColumn], by norm_num⟩, ?_⟩
  norm_num [compute_blended_profile, pchipFit, blendedColumn, Except.map, List.zip]

/-! ### Heap-level view of the blending step (for the frame property) -/

/-- One row of the merged table after `compute_blended_profile` has written the
`blended` column into it. -/
structure PairRowB where
  temperature : ℤ
  recovery : ℚ
  recovery_2 : ℚ
  blended : ℚ
  deriving DecidableEq, Repr

/-- The artifacts alive in `run`'s frame when `compute_blended_profile` is called:
the two cleaned observation tables, the two fitted per-curve interpolation tables,
and the merged pair table. -/
structure PipelineState where
  profile1 : List Obs
  profile2 : List Obs
  recovery1 : List (ℤ × ℚ)
  recovery2 : List (ℤ × ℚ)
  paired : List PairRow
  deriving DecidableEq, Repr

/-- The same frame after the call: only the pair table changed (it gained `blended`). -/
structure PipelineStateB where
  profile1 : List Obs
  profile2 : List Obs
  recovery1 : List (ℤ × ℚ)
  recovery2 : List (ℤ × ℚ)
  paired : List PairRowB
  deriving DecidableEq, Repr

/-- Heap-level model of the `compute_blended_profile` call inside `run`: the
assignment `pair_df['blended'] = ...` writes the blended column into the caller's
merged table (before the inverse fit runs, hence also when the fit then fails),
nothing else in the frame is written, and the returned value is the fresh
percentile table of `compute_blended_profile`. -/
def compute_blended_profile_heap (st : PipelineState) (share1 share2 : ℚ) :
    PipelineStateB × Except PyError (List BlendRow) :=
  (⟨st.profile1, st.profile2, st.recovery1, st.recovery2,
      st.paired.map fun r =>
        ⟨r.temperature, r.recovery, r.recovery_2,
          share1 * r.recovery + share2 * r.recovery_2⟩⟩,
    compute_blended_profile st.paired share1 share2 st.profile1 st.profile2)

/-- C10: the blending-and-extraction step adds the blended column to the merged pair
table in place (keeping its existing columns) but leaves the two cleaned observation
tables and the two fitted interpolation tables unchanged; what it returns is the
fresh percentile table, not a view of any earlier artifact. -/
theorem compute_step_frame (st : PipelineState) (share1 share2 : ℚ) :
    (compute_blended_profile_heap st share1 share2).1.profile1 = st.profile1 ∧
    (compute_blended_profile_heap st share1 share2).1.profile2 = st.profile2 ∧
    (compute_blended_profile_heap st share1 share2).1.recovery1 = st.recovery1 ∧
    (compute_blended_profile_heap st share1 share2).1.recovery2 = st.recovery2 ∧
    ((compute_blended_profile_heap st share1 share2).1.paired.map fun r =>
        (⟨r.temperature, r.recovery, r.recovery_2⟩ : PairRow)) = st.paired ∧
    ((compute_blended_profile_heap st share1 share2).1.paired.map (·.blended)) =
      blendedColumn st.paired share1 share2 ∧
    (compute_blended_profile_heap st share1 share2).2 =
      compute_blended_profile st.paired share1 share2 st.profile1 st.profile2 := by
  refine ⟨rfl, rfl, rfl, rfl, ?_, ?_, rfl⟩
  · show (st.paired.map _).map _ = st.paired
    rw [List.map_map]
    have hid : ((fun r : PairRowB => (⟨r.temperature, r.recovery, r.recovery_2⟩ : PairRow)) ∘
        fun r : PairRow =>
          (⟨r.temperature, r.recovery, r.recovery_2,
            share1 * r.recovery + share2 * r.recovery_2⟩ : PairRowB)) = id := rfl
    rw [hid, List.map_id]
  · show (st.paired.map _).map _ = _
    rw [List.map_map]
    rfl

/-! ### Symmetry of the pipeline in the two liquids -/

theorem global_range_symm (df1 df2 : List Obs) :
    get_global_temperature_range df2 df1 = get_global_temperature_range df1 df2 := by
  unfold get_global_temperature_range
  rw [min_comm, max_comm]

theorem mergeAux_swap (i1 i2 : List (ℤ × ℚ)) :
    ∀ (g : List ℤ) (l1 l2 : Option ℚ),
      mergeAux i2 i1 l2 l1 g =
        (mergeAux i1 i2 l1 l2 g).map fun r => ⟨r.temperature, r.recovery_2, r.recovery⟩ := by
  intro g
  induction g with
  | nil => intro l1 l2; rfl
  | cons t ts ih => intro l1 l2; simp [mergeAux, ih]

theorem merge_swap (i1 i2 : List (ℤ × ℚ)) (g : List ℤ) :
    merge_interpolations_over_range i2 i1 g =
      (merge_interpolations_over_range i1 i2 g).map fun r =>
        ⟨r.temperature, r.recovery_2, r.recovery⟩ :=
  mergeAux_swap i1 i2 g none none

theorem compute_swap (pair : List PairRow) (share1 share2 : ℚ) (df1 df2 : List Obs) :
    compute_blended_profile (pair.map fun r => ⟨r.temperature, r.recovery_2, r.recovery⟩)
        share2 share1 df2 df1 =
      compute_blended_profile pair share1 share2 df1 df2 := by
  unfold compute_blended_profile
  have hb : blendedColumn (pair.map fun r => ⟨r.temperature, r.recovery_2, r.recovery⟩)
      share2 share1 = blendedColumn pair share1 share2 := by
    unfold blendedColumn
    rw [List.map_map]
    congr 1
    funext r
    show share2 * r.recovery_2 + share1 * r.recovery = _
    ring
  have ht : (pair.map fun r => (⟨r.temperature, r.recovery_2, r.recovery⟩ : PairRow)).map
      (fun r => (r.temperature : ℚ)) = pair.map fun r => (r.temperature : ℚ) := by
    rw [List.map_map]; rfl
  have hr : recoveryMax df2 df1 share2 share1 = recoveryMax df1 df2 share1 share2 := by
    unfold recoveryMax; ring
  rw [hb, ht, hr]

theorem compute_recovery_col (pair : List PairRow) (share1 share2 : ℚ)
    (df1 df2 : List Obs) (res : List BlendRow)
    (h : compute_blended_profile pair share1 share2 df1 df2 = .ok res) :
    res.map (·.recovery) = profile_percentages := by
  unfold compute_blended_profile at h
  rw [exceptMap_eq_ok] at h
  obtain ⟨segs, -, rfl⟩ := h
  rw [List.map_map]
  exact List.map_id _

/-- C6: a successful run reports the fixed ascending percentile list
{5,10,20,30,40,50,60,70,80,90,95,99} as its recovery column, and exchanging
(idA, shareA) with (idB, shareB) yields the same BlendResult. -/
theorem run_swap_symmetric (profile1 profile2 : List Obs) (volume1 volume2 : ℚ)
    (res : List BlendRow) (h : run profile1 profile2 volume1 volume2 = .ok res) :
    run profile2 profile1 volume2 volume1 = .ok res ∧
    res.map (·.recovery) = profile_percentages := by
  unfold run at h ⊢
  cases h1 : get_recovery_interpolation profile1 with
  | error e => rw [h1] at h; exact absurd h (by simp [Bind.bind, Except.bind])
  | ok r1 =>
      cases h2 : get_recovery_interpolation profile2 with
      | error e => rw [h1, h2] at h; exact absurd h (by simp [Bind.bind, Except.bind])
      | ok r2 =>
          rw [h1, h2] at h
          simp only [Bind.bind, Except.bind] at h ⊢
          rw [global_range_symm, merge_swap, compute_swap]
          exact ⟨h, compute_recovery_col _ _ _ _ _ _ h⟩

/-- Witness for C6: two concrete two-point profiles; swapping the liquids returns the
identical table, whose recovery column is the fixed percentile list. -/
theorem run_swap_symmetric_witness :
    run [⟨0, 3/5⟩, ⟨100, 18/5⟩] [⟨0, 1/2⟩, ⟨100, 7/2⟩] (1/2) (1/2) =
      .ok [⟨5, some (7/10)⟩, ⟨10, some (17/20)⟩, ⟨20, some (23/20)⟩, ⟨30, some (29/20)⟩,
        ⟨40, some (7/4)⟩, ⟨50, some (41/20)⟩, ⟨60, some (47/20)⟩, ⟨70, some (53/20)⟩,
        ⟨80, some (59/20)⟩, ⟨90, some (13/4)⟩, ⟨95, some (17/5)⟩, ⟨99, some (88/25)⟩] ∧
    ([⟨5, some (7/10)⟩, ⟨10, some (17/20)⟩, ⟨20, some (23/20)⟩, ⟨30, some (29/20)⟩,
        ⟨40, some (7/4)⟩, ⟨50, some (41/20)⟩, ⟨60, some (47/20)⟩, ⟨70, some (53/20)⟩,
        ⟨80, some (59/20)⟩, ⟨90, some (13/4)⟩, ⟨95, some (17/5)⟩,
        ⟨99, some (88/25)⟩] : List BlendRow).map (·.recovery) = profile_percentages :=
  run_swap_symmetric [⟨0, 1/2⟩, ⟨100, 7/2⟩] [⟨0, 3/5⟩, ⟨100, 18/5⟩] (1/2) (1/2) _
    (by norm_num [run, get_recovery_interpolation, get_discrete_temperature_range_checked,
      pchipFit, pchipDerivs, attachDerivs,
      slope, evalSegments, hermite, get_discrete_temperature_range,
      get_global_temperature_range, colMin, colMax,
      merge_interpolations_over_range, mergeAux, lookupTemp, compute_blended_profile,
      blendedColumn, recoveryMax, colMaxZ, profile_percentages, Except.map, Bind.bind,
      Except.bind, Pure.pure, Except.pure, List.zip, List.find?, Option.orElse,
      min_def, max_def,
      show ⌈(1:ℚ)/2⌉ = 1 from by norm_num [Int.ceil_eq_iff],
      show ⌈(3:ℚ)/5⌉ = 1 from by norm_num [Int.ceil_eq_iff],
      show intRange 1 3 = [1, 2] from rfl,
      show ((1 : ℤ) == 1) = true from rfl, show ((2 : ℤ) == 2) = true from rfl,
      show ((1 : ℤ) == 2) = false from rfl, show ((2 : ℤ) == 1) = false from rfl])

/-! ### Forward-fill semantics of the merge -/

theorem lookupTemp_sampled (f : ℤ → ℚ) :
    ∀ (n : ℕ) (a t : ℤ),
      lookupTemp ((intRangeAux a n).map fun u => (u, f u)) t =
        if a ≤ t ∧ t < a + n then some (f t) else none := by
  intro n
  induction n with
  | zero =>
      intro a t
      rw [if_neg (by omega)]
      rfl
  | succ k ih =>
      intro a t
      rcases eq_or_ne a t with rfl | hne
      · unfold lookupTemp intRangeAux
        rw [List.map_cons, List.find?_cons_of_pos _ (by simp)]
        rw [if_pos (by omega)]
        rfl
      · unfold lookupTemp intRangeAux
        rw [List.map_cons, List.find?_cons_of_neg _ (by simp [hne])]
        have h := ih (a + 1) t
        unfold lookupTemp at h
        rw [h]
        split_ifs with h1 h2 h2 <;> first | rfl | omega

theorem lookupTemp_intRange (f : ℤ → ℚ) (a b t : ℤ) :
    lookupTemp ((intRange a b).map fun u => (u, f u)) t =
      if a ≤ t ∧ t < b then some (f t) else none := by
  unfold intRange
  rw [lookupTemp_sampled]
  split_ifs with h1 h2 h2 <;> first | rfl | omega

theorem ffill_state_step (f : ℤ → ℚ) (a b t0 : ℤ) (hab : a < b) :
    ((lookupTemp ((intRange a b).map fun u => (u, f u)) t0).orElse
        (fun _ => if t0 ≤ a then none else if t0 ≤ b then some (f (t0 - 1))
          else some (f (b - 1))) =
      if t0 + 1 ≤ a then none else if t0 + 1 ≤ b then some (f (t0 + 1 - 1))
        else some (f (b - 1))) ∧
    (((lookupTemp ((intRange a b).map fun u => (u, f u)) t0).orElse
        (fun _ => if t0 ≤ a then none else if t0 ≤ b then some (f (t0 - 1))
          else some (f (b - 1)))).getD 0 =
      if t0 < a then 0 else if t0 < b then f t0 else f (b - 1)) := by
  rw [lookupTemp_intRange]
  simp only [Int.add_sub_cancel]
  by_cases hin : a ≤ t0 ∧ t0 < b
  · rw [if_pos hin]
    constructor
    · show some (f t0) = _
      rw [if_neg (by omega), if_pos (by omega)]
    · show f t0 = _
      rw [if_neg (by omega), if_pos (by omega)]
  · rw [if_neg hin]
    constructor
    · show (if t0 ≤ a then (none : Option ℚ) else if t0 ≤ b then some (f (t0 - 1))
          else some (f (b - 1))) = _
      split_ifs <;>
        first
          | rfl
          | omega
          | rw [show t0 - 1 = b - 1 from by omega]
    · show (if t0 ≤ a then (none : Option ℚ) else if t0 ≤ b then some (f (t0 - 1))
          else some (f (b - 1))).getD 0 = _
      split_ifs <;>
        first
          | rfl
          | omega
          | (rw [show t0 - 1 = b - 1 from by omega]; try rfl)

theorem mergeAux_sampled (f1 f2 : ℤ → ℚ) (a1 b1 a2 b2 : ℤ)
    (hb1 : a1 < b1) (hb2 : a2 < b2) :
    ∀ (n : ℕ) (t0 : ℤ),
      mergeAux ((intRange a1 b1).map fun u => (u, f1 u))
          ((intRange a2 b2).map fun u => (u, f2 u))
          (if t0 ≤ a1 then none else if t0 ≤ b1 then some (f1 (t0 - 1))
            else some (f1 (b1 - 1)))
          (if t0 ≤ a2 then none else if t0 ≤ b2 then some (f2 (t0 - 1))
            else some (f2 (b2 - 1)))
          (intRangeAux t0 n) =
        (intRangeAux t0 n).map fun t =>
          ⟨t, if t < a1 then 0 else if t < b1 then f1 t else f1 (b1 - 1),
              if t < a2 then 0 else if t < b2 then f2 t else f2 (b2 - 1)⟩ := by
  intro n
  induction n with
  | zero => intro t0; rfl
  | succ k ih =>
      intro t0
      rw [show intRangeAux t0 (k + 1) = t0 :: intRangeAux (t0 + 1) k from rfl,
        List.map_cons, mergeAux]
      rw [(ffill_state_step f1 a1 b1 t0 hb1).2, (ffill_state_step f2 a2 b2 t0 hb2).2,
        (ffill_state_step f1 a1 b1 t0 hb1).1, (ffill_state_step f2 a2 b2 t0 hb2).1,
        ih (t0 + 1)]

/-- C3: over any joint grid that starts no later than either curve's native grid, the
merged table is total (one row per grid point) and each curve's column holds the
curve's own sampled value inside its native domain, the last native value
(forward-fill of the most recent prior sample) past its native domain, and 0 before
its first native sample. -/
theorem merge_forward_fill (f1 f2 : ℤ → ℚ) (a1 b1 a2 b2 g0 g1 : ℤ)
    (hb1 : a1 < b1) (hb2 : a2 < b2) (hg1 : g0 ≤ a1) (hg2 : g0 ≤ a2) :
    merge_interpolations_over_range
        ((intRange a1 b1).map fun u => (u, f1 u))
        ((intRange a2 b2).map fun u => (u, f2 u))
        (intRange g0 g1) =
      (intRange g0 g1).map fun t =>
        ⟨t, if t < a1 then 0 else if t < b1 then f1 t else f1 (b1 - 1),
            if t < a2 then 0 else if t < b2 then f2 t else f2 (b2 - 1)⟩ := by
  unfold merge_interpolations_over_range
  have h := mergeAux_sampled f1 f2 a1 b1 a2 b2 hb1 hb2 (g1 - g0).toNat g0
  rw [if_pos hg1, if_pos hg2] at h
  exact h

/-- Witness for C3: curve 1 sampled on [2, 4), curve 2 on [3, 5), joint grid [1, 7). -/
theorem merge_forward_fill_witness :
    merge_interpolations_over_range
        ((intRange 2 4).map fun u => (u, (u : ℚ)))
        ((intRange 3 5).map fun u => (u, (2 * u : ℚ)))
        (intRange 1 7) =
      (intRange 1 7).map fun t =>
        ⟨t, if t < 2 then 0 else if t < 4 then (t : ℚ) else (((4 : ℤ) - 1 : ℤ) : ℚ),
            if t < 3 then 0 else if t < 5 then (2 * t : ℚ)
              else (2 * ((((5 : ℤ) - 1 : ℤ)) : ℚ) : ℚ)⟩ :=
  merge_forward_fill (fun u => (u : ℚ)) (fun u => (2 * u : ℚ)) 2 4 3 5 1 7
    (by decide) (by decide) (by decide) (by decide)

/-! ### Monotonicity of the PCHIP interpolant

The classical Fritsch–Carlson argument: on one interval, writing the cubic in the
normalized Hermite basis, the interpolant is nondecreasing whenever both endpoint
derivatives lie in `[0, 3m]` for the interval's secant slope `m ≥ 0`; the PCHIP
derivative rules (weighted harmonic mean inside, clamped one-sided estimates at the
edges) always land in that box when the data is strictly increasing. -/

theorem cubic_P_mono (s1 s2 : ℚ) (h0 : 0 ≤ s1) (h12 : s1 ≤ s2) (h1 : s2 ≤ 1) :
    3 * s1 ^ 2 - 2 * s1 ^ 3 ≤ 3 * s2 ^ 2 - 2 * s2 ^ 3 := by
  nlinarith [mul_nonneg (mul_nonneg (sub_nonneg.mpr h12) h0)
      (by linarith : (0:ℚ) ≤ 3 - 2 * s1 - s2),
    mul_nonneg (mul_nonneg (sub_nonneg.mpr h12) (h0.trans h12))
      (by linarith : (0:ℚ) ≤ 3 - 2 * s2 - s1)]

theorem cubic_PQ_mono (s1 s2 : ℚ) (h0 : 0 ≤ s1) (h12 : s1 ≤ s2) (h1 : s2 ≤ 1) :
    (3 * s1 ^ 2 - 2 * s1 ^ 3) + 3 * (s1 ^ 3 - 2 * s1 ^ 2 + s1) ≤
      (3 * s2 ^ 2 - 2 * s2 ^ 3) + 3 * (s2 ^ 3 - 2 * s2 ^ 2 + s2) := by
  nlinarith [mul_nonneg (mul_nonneg (sub_nonneg.mpr h12) (by linarith : (0:ℚ) ≤ 1 - s1))
      (by linarith : (0:ℚ) ≤ 1 - s2),
    mul_nonneg (sub_nonneg.mpr h12) (sq_nonneg (s1 - s2))]

theorem cubic_PR_mono (s1 s2 : ℚ) (h0 : 0 ≤ s1) (h12 : s1 ≤ s2) (h1 : s2 ≤ 1) :
    (3 * s1 ^ 2 - 2 * s1 ^ 3) + 3 * (s1 ^ 3 - s1 ^ 2) ≤
      (3 * s2 ^ 2 - 2 * s2 ^ 3) + 3 * (s2 ^ 3 - s2 ^ 2) := by
  nlinarith [mul_nonneg (sub_nonneg.mpr h12) (mul_nonneg h0 h0),
    mul_nonneg (sub_nonneg.mpr h12) (mul_nonneg h0 (h0.trans h12)),
    mul_nonneg (sub_nonneg.mpr h12) (mul_nonneg (h0.trans h12) (h0.trans h12))]

theorem cubic_PQR_mono (s1 s2 : ℚ) (h0 : 0 ≤ s1) (h12 : s1 ≤ s2) (h1 : s2 ≤ 1) :
    (3 * s1 ^ 2 - 2 * s1 ^ 3) + 3 * (s1 ^ 3 - 2 * s1 ^ 2 + s1) + 3 * (s1 ^ 3 - s1 ^ 2) ≤
      (3 * s2 ^ 2 - 2 * s2 ^ 3) + 3 * (s2 ^ 3 - 2 * s2 ^ 2 + s2) + 3 * (s2 ^ 3 - s2 ^ 2) := by
  nlinarith [mul_nonneg (sub_nonneg.mpr h12) (sq_nonneg (s1 + s2 - 1)),
    mul_nonneg (sub_nonneg.mpr h12) (sq_nonneg (s1 - s2))]

theorem hermite_basis_mono (m d0 d1 s1 s2 : ℚ) (hm : 0 ≤ m)
    (hd0 : 0 ≤ d0) (hd03 : d0 ≤ 3 * m) (hd1 : 0 ≤ d1) (hd13 : d1 ≤ 3 * m)
    (h0 : 0 ≤ s1) (h12 : s1 ≤ s2) (h1 : s2 ≤ 1) :
    m * (3 * s1 ^ 2 - 2 * s1 ^ 3) + d0 * (s1 ^ 3 - 2 * s1 ^ 2 + s1) +
        d1 * (s1 ^ 3 - s1 ^ 2) ≤
      m * (3 * s2 ^ 2 - 2 * s2 ^ 3) + d0 * (s2 ^ 3 - 2 * s2 ^ 2 + s2) +
        d1 * (s2 ^ 3 - s2 ^ 2) := by
  have hP := cubic_P_mono s1 s2 h0 h12 h1
  have hPQ := cubic_PQ_mono s1 s2 h0 h12 h1
  have hPR := cubic_PR_mono s1 s2 h0 h12 h1
  have hPQR := cubic_PQR_mono s1 s2 h0 h12 h1
  by_cases hQ : s1 ^ 3 - 2 * s1 ^ 2 + s1 ≤ s2 ^ 3 - 2 * s2 ^ 2 + s2 <;>
    by_cases hR : s1 ^ 3 - s1 ^ 2 ≤ s2 ^ 3 - s2 ^ 2
  · nlinarith [mul_le_mul_of_nonneg_left hP hm, mul_le_mul_of_nonneg_left hQ hd0,
      mul_le_mul_of_nonneg_left hR hd1]
  · nlinarith [mul_le_mul_of_nonneg_left hPR hm, mul_le_mul_of_nonneg_left hQ hd0,
      mul_le_mul_of_nonpos_right hd13
        (by linarith : s2 ^ 3 - s2 ^ 2 - (s1 ^ 3 - s1 ^ 2) ≤ 0)]
  · nlinarith [mul_le_mul_of_nonneg_left hPQ hm, mul_le_mul_of_nonneg_left hR hd1,
      mul_le_mul_of_nonpos_right hd03
        (by linarith : s2 ^ 3 - 2 * s2 ^ 2 + s2 - (s1 ^ 3 - 2 * s1 ^ 2 + s1) ≤ 0)]
  · nlinarith [mul_le_mul_of_nonneg_left hPQR hm,
      mul_le_mul_of_nonpos_right hd03
        (by linarith : s2 ^ 3 - 2 * s2 ^ 2 + s2 - (s1 ^ 3 - 2 * s1 ^ 2 + s1) ≤ 0),
      mul_le_mul_of_nonpos_right hd13
        (by linarith : s2 ^ 3 - s2 ^ 2 - (s1 ^ 3 - s1 ^ 2) ≤ 0)]

theorem hermite_eq_basis (x0 y0 d0 x1 y1 d1 t : ℚ) (hx : x0 < x1) :
    hermite x0 y0 d0 x1 y1 d1 t =
      y0 + (x1 - x0) *
        ((y1 - y0) / (x1 - x0) *
            (3 * ((t - x0) / (x1 - x0)) ^ 2 - 2 * ((t - x0) / (x1 - x0)) ^ 3) +
          d0 * (((t - x0) / (x1 - x0)) ^ 3 - 2 * ((t - x0) / (x1 - x0)) ^ 2 +
            (t - x0) / (x1 - x0)) +
          d1 * (((t - x0) / (x1 - x0)) ^ 3 - ((t - x0) / (x1 - x0)) ^ 2)) := by
  have h : x1 - x0 ≠ 0 := by linarith
  unfold hermite
  field_simp
  ring

theorem hermite_mono (x0 y0 d0 x1 y1 d1 t1 t2 : ℚ)
    (hx : x0 < x1) (hy : y0 ≤ y1)
    (hd0 : 0 ≤ d0) (hd03 : d0 * (x1 - x0) ≤ 3 * (y1 - y0))
    (hd1 : 0 ≤ d1) (hd13 : d1 * (x1 - x0) ≤ 3 * (y1 - y0))
    (h1 : x0 ≤ t1) (h12 : t1 ≤ t2) (h2 : t2 ≤ x1) :
    hermite x0 y0 d0 x1 y1 d1 t1 ≤ hermite x0 y0 d0 x1 y1 d1 t2 := by
  have hh : 0 < x1 - x0 := by linarith
  have hm : 0 ≤ (y1 - y0) / (x1 - x0) := div_nonneg (by linarith) hh.le
  have hd03' : d0 ≤ 3 * ((y1 - y0) / (x1 - x0)) := by
    rw [mul_div_assoc', le_div_iff hh]
    linarith
  have hd13' : d1 ≤ 3 * ((y1 - y0) / (x1 - x0)) := by
    rw [mul_div_assoc', le_div_iff hh]
    linarith
  have hs1 : 0 ≤ (t1 - x0) / (x1 - x0) := div_nonneg (by linarith) hh.le
  have hs12 : (t1 - x0) / (x1 - x0) ≤ (t2 - x0) / (x1 - x0) :=
    (div_le_div_right hh).mpr (by linarith)
  have hs2 : (t2 - x0) / (x1 - x0) ≤ 1 := by
    rw [div_le_one hh]
    linarith
  rw [hermite_eq_basis x0 y0 d0 x1 y1 d1 t1 hx, hermite_eq_basis x0 y0 d0 x1 y1 d1 t2 hx]
  have hkey := hermite_basis_mono ((y1 - y0) / (x1 - x0)) d0 d1
    ((t1 - x0) / (x1 - x0)) ((t2 - x0) / (x1 - x0)) hm hd0 hd03' hd1 hd13' hs1 hs12 hs2
  nlinarith [mul_le_mul_of_nonneg_left hkey hh.le]

theorem harmonic_le (w1 w2 mp m : ℚ) (hw1 : 0 < w1) (hw2 : 0 < w2)
    (hmp : 0 < mp) (hm : 0 < m) (hw : w1 ≤ 2 * w2) :
    (w1 + w2) / (w1 / mp + w2 / m) ≤ 3 * m := by
  have hD : 0 < w1 / mp + w2 / m := by positivity
  rw [div_le_iff hD]
  have h1 : 3 * m * (w1 / mp + w2 / m) = 3 * m * w1 / mp + 3 * w2 := by
    field_simp
    ring
  rw [h1]
  have h2 : 0 < 3 * m * w1 / mp := by positivity
  linarith

theorem interiorDeriv_bounds (hp mp h m : ℚ) (hhp : 0 < hp) (hh : 0 < h)
    (hmp : 0 < mp) (hm : 0 < m) :
    0 ≤ interiorDeriv hp mp h m ∧ interiorDeriv hp mp h m ≤ 3 * mp ∧
      interiorDeriv hp mp h m ≤ 3 * m := by
  have hcond : ¬(sgn mp ≠ sgn m ∨ m = 0 ∨ mp = 0) := by
    simp [sgn, if_pos hmp, if_pos hm, hm.ne', hmp.ne']
  have hval : interiorDeriv hp mp h m =
      (2 * h + hp + (h + 2 * hp)) / ((2 * h + hp) / mp + (h + 2 * hp) / m) := by
    simp only [interiorDeriv]
    rw [if_neg hcond, one_div_div]
  rw [hval]
  have hw1 : 0 < 2 * h + hp := by linarith
  have hw2 : 0 < h + 2 * hp := by linarith
  refine ⟨by positivity, ?_, ?_⟩
  · have hcomm : (2 * h + hp + (h + 2 * hp)) / ((2 * h + hp) / mp + (h + 2 * hp) / m) =
        (h + 2 * hp + (2 * h + hp)) / ((h + 2 * hp) / m + (2 * h + hp) / mp) := by
      rw [add_comm (2 * h + hp) (h + 2 * hp), add_comm ((2 * h + hp) / mp) ((h + 2 * hp) / m)]
    rw [hcomm]
    exact harmonic_le (h + 2 * hp) (2 * h + hp) m mp hw2 hw1 hm hmp (by linarith)
  · exact harmonic_le (2 * h + hp) (h + 2 * hp) mp m hw1 hw2 hmp hm (by linarith)

theorem edgeCase_bounds (h0 h1 m0 m1 : ℚ) (hh0 : 0 < h0) (hh1 : 0 < h1)
    (hm0 : 0 < m0) (hm1 : 0 < m1) :
    0 ≤ edgeCase h0 h1 m0 m1 ∧ edgeCase h0 h1 m0 m1 ≤ 3 * m0 := by
  have hden : 0 < h0 + h1 := by linarith
  by_cases hd : 0 < ((2 * h0 + h1) * m0 - h0 * m1) / (h0 + h1)
  · have hc1 : ¬(sgn (((2 * h0 + h1) * m0 - h0 * m1) / (h0 + h1)) ≠ sgn m0) := by
      simp [sgn, if_pos hd, if_pos hm0]
    have hc2 : ¬(sgn m0 ≠ sgn m1 ∧
        3 * |m0| < |((2 * h0 + h1) * m0 - h0 * m1) / (h0 + h1)|) := by
      simp [sgn, if_pos hm0, if_pos hm1]
    simp only [edgeCase]
    rw [if_neg hc1, if_neg hc2]
    refine ⟨hd.le, ?_⟩
    rw [div_le_iff hden]
    nlinarith
  · have hs : sgn (((2 * h0 + h1) * m0 - h0 * m1) / (h0 + h1)) ≠ sgn m0 := by
      simp only [sgn, if_neg hd, if_pos hm0]
      split_ifs <;> norm_num
    simp only [edgeCase]
    rw [if_pos hs]
    exact ⟨le_refl 0, by positivity⟩

/-- Fritsch–Carlson side conditions along a segment list: knots strictly increase in
x, values do not decrease, and both endpoint derivatives of every interval lie in
`[0, 3m]` for that interval's secant slope `m`. -/
def SegsOK : List (ℚ × ℚ × ℚ) → Prop
  | (x0, y0, d0) :: (x1, y1, d1) :: rest =>
      x0 < x1 ∧ y0 ≤ y1 ∧ 0 ≤ d0 ∧ d0 * (x1 - x0) ≤ 3 * (y1 - y0) ∧
        0 ≤ d1 ∧ d1 * (x1 - x0) ≤ 3 * (y1 - y0) ∧ SegsOK ((x1, y1, d1) :: rest)
  | _ => True

/-- The abscissa of the first knot. -/
def headX : List (ℚ × ℚ × ℚ) → ℚ
  | (x, _, _) :: _ => x
  | [] => 0

/-- The abscissa of the last knot. -/
def lastX : List (ℚ × ℚ × ℚ) → ℚ
  | [] => 0
  | [(x, _, _)] => x
  | _ :: s :: rest => lastX (s :: rest)

theorem hermite_left_knot (x0 y0 d0 x1 y1 d1 : ℚ) :
    hermite x0 y0 d0 x1 y1 d1 x0 = y0 := by
  simp only [hermite]
  ring

theorem hermite_right_knot (x0 y0 d0 x1 y1 d1 : ℚ) (hx : x0 < x1) :
    hermite x0 y0 d0 x1 y1 d1 x1 = y1 := by
  have h : x1 - x0 ≠ 0 := by linarith
  simp only [hermite]
  field_simp
  ring

theorem evalSegments_left_knot (x0 y0 d0 x1 y1 d1 : ℚ) (rest : List (ℚ × ℚ × ℚ))
    (hx : x0 < x1) :
    evalSegments ((x0, y0, d0) :: (x1, y1, d1) :: rest) x0 = y0 := by
  show (if x0 < x1 ∨ rest = [] then hermite x0 y0 d0 x1 y1 d1 x0
    else evalSegments ((x1, y1, d1) :: rest) x0) = y0
  rw [if_pos (Or.inl hx), hermite_left_knot]

theorem evalSegments_mono :
    ∀ (segs : List (ℚ × ℚ × ℚ)) (t1 t2 : ℚ), SegsOK segs → 2 ≤ segs.length →
      headX segs ≤ t1 → t1 ≤ t2 → t2 ≤ lastX segs →
      evalSegments segs t1 ≤ evalSegments segs t2 := by
  intro segs
  induction segs with
  | nil => intro t1 t2 _ hlen _ _ _; simp at hlen
  | cons s0 tail ih =>
      obtain ⟨x0, y0, d0⟩ := s0
      cases tail with
      | nil => intro t1 t2 _ hlen _ _ _; simp at hlen
      | cons s1 rest =>
          obtain ⟨x1, y1, d1⟩ := s1
          intro t1 t2 hOK hlen h1 h12 h2
          obtain ⟨hx01, hy01, hd0, hd03, hd1, hd13, hOKtail⟩ := hOK
          cases rest with
          | nil =>
              have hval : ∀ t, evalSegments [(x0, y0, d0), (x1, y1, d1)] t =
                  hermite x0 y0 d0 x1 y1 d1 t := by
                intro t
                show (if t < x1 ∨ ([] : List (ℚ × ℚ × ℚ)) = [] then _ else _) = _
                rw [if_pos (Or.inr rfl)]
              rw [hval t1, hval t2]
              exact hermite_mono x0 y0 d0 x1 y1 d1 t1 t2 hx01 hy01 hd0 hd03 hd1 hd13
                h1 h12 h2
          | cons s2 rest2 =>
              have heval_lt : ∀ t, t < x1 →
                  evalSegments ((x0, y0, d0) :: (x1, y1, d1) :: s2 :: rest2) t =
                    hermite x0 y0 d0 x1 y1 d1 t := by
                intro t ht
                show (if t < x1 ∨ s2 :: rest2 = [] then _ else _) = _
                rw [if_pos (Or.inl ht)]
              have heval_ge : ∀ t, x1 ≤ t →
                  evalSegments ((x0, y0, d0) :: (x1, y1, d1) :: s2 :: rest2) t =
                    evalSegments ((x1, y1, d1) :: s2 :: rest2) t := by
                intro t ht
                show (if t < x1 ∨ s2 :: rest2 = [] then _ else _) = _
                rw [if_neg]
                rintro (hc | hc)
                · exact absurd hc (not_lt.mpr ht)
                · simp at hc
              by_cases hcase1 : t2 < x1
              · have ht1 : t1 < x1 := lt_of_le_of_lt h12 hcase1
                rw [heval_lt t1 ht1, heval_lt t2 hcase1]
                exact hermite_mono x0 y0 d0 x1 y1 d1 t1 t2 hx01 hy01 hd0 hd03 hd1 hd13
                  h1 h12 hcase1.le
              · by_cases hcase2 : x1 ≤ t1
                · rw [heval_ge t1 hcase2, heval_ge t2 (hcase2.trans h12)]
                  exact ih t1 t2 hOKtail (by simp) (le_of_eq rfl |>.trans hcase2) h12 h2
                · push_neg at hcase1 hcase2
                  obtain ⟨x2, y2, d2⟩ := s2
                  have hx12 : x1 < x2 := hOKtail.1
                  have step1 : evalSegments ((x0, y0, d0) :: (x1, y1, d1) ::
                      (x2, y2, d2) :: rest2) t1 ≤ y1 := by
                    rw [heval_lt t1 hcase2]
                    calc hermite x0 y0 d0 x1 y1 d1 t1 ≤ hermite x0 y0 d0 x1 y1 d1 x1 :=
                          hermite_mono x0 y0 d0 x1 y1 d1 t1 x1 hx01 hy01 hd0 hd03 hd1 hd13
                            h1 hcase2.le (le_refl x1)
                      _ = y1 := hermite_right_knot x0 y0 d0 x1 y1 d1 hx01
                  have step2 : y1 ≤ evalSegments ((x0, y0, d0) :: (x1, y1, d1) ::
                      (x2, y2, d2) :: rest2) t2 := by
                    rw [heval_ge t2 hcase1]
                    calc y1 = evalSegments ((x1, y1, d1) :: (x2, y2, d2) :: rest2) x1 :=
                          (evalSegments_left_knot x1 y1 d1 x2 y2 d2 rest2 hx12).symm
                      _ ≤ evalSegments ((x1, y1, d1) :: (x2, y2, d2) :: rest2) t2 :=
                          ih x1 t2 hOKtail (by simp) (le_refl x1) hcase1 h2
                  exact step1.trans step2

/-- Adjacent points strictly increase in both coordinates. -/
def PtsChain : List (ℚ × ℚ) → Prop
  | p :: q :: rest => p.1 < q.1 ∧ p.2 < q.2 ∧ PtsChain (q :: rest)
  | _ => True

/-- The last two points of `a :: b :: rest`. -/
def lastInterval : ℚ × ℚ → ℚ × ℚ → List (ℚ × ℚ) → (ℚ × ℚ) × (ℚ × ℚ)
  | a, b, [] => (a, b)
  | _, b, c :: rest => lastInterval b c rest

/-- The last three points of `a :: b :: c :: rest`. -/
def lastTriple : ℚ × ℚ → ℚ × ℚ → ℚ × ℚ → List (ℚ × ℚ) →
    (ℚ × ℚ) × (ℚ × ℚ) × (ℚ × ℚ)
  | a, b, c, [] => (a, b, c)
  | _, b, c, d :: rest => lastTriple b c d rest

theorem slope_pos {p q : ℚ × ℚ} (hx : p.1 < q.1) (hy : p.2 < q.2) : 0 < slope p q :=
  div_pos (by linarith) (by linarith)

theorem le_three_slope_mul {p q : ℚ × ℚ} (hx : p.1 < q.1) {d : ℚ}
    (hd : d ≤ 3 * slope p q) : d * (q.1 - p.1) ≤ 3 * (q.2 - p.2) := by
  have hh : 0 < q.1 - p.1 := by linarith
  have h := mul_le_mul_of_nonneg_right hd hh.le
  rw [slope, mul_assoc, div_mul_cancel₀ _ (ne_of_gt hh)] at h
  exact h

theorem lastInterval_facts :
    ∀ (rest : List (ℚ × ℚ)) (a b : ℚ × ℚ), PtsChain (a :: b :: rest) →
      (lastInterval a b rest).1.1 < (lastInterval a b rest).2.1 ∧
      (lastInterval a b rest).1.2 < (lastInterval a b rest).2.2 := by
  intro rest
  induction rest with
  | nil => intro a b hch; exact ⟨hch.1, hch.2.1⟩
  | cons c rest2 ih => intro a b hch; exact ih b c hch.2.2

theorem lastTriple_facts :
    ∀ (rest : List (ℚ × ℚ)) (a b c : ℚ × ℚ), PtsChain (a :: b :: c :: rest) →
      (lastTriple a b c rest).1.1 < (lastTriple a b c rest).2.1.1 ∧
      (lastTriple a b c rest).1.2 < (lastTriple a b c rest).2.1.2 ∧
      (lastTriple a b c rest).2.1.1 < (lastTriple a b c rest).2.2.1 ∧
      (lastTriple a b c rest).2.1.2 < (lastTriple a b c rest).2.2.2 := by
  intro rest
  induction rest with
  | nil => intro a b c hch; exact ⟨hch.1, hch.2.1, hch.2.2.1, hch.2.2.2.1⟩
  | cons d rest2 ih => intro a b c hch; exact ih b c d hch.2.2

theorem lastInterval_eq_lastTriple :
    ∀ (rest : List (ℚ × ℚ)) (a b c : ℚ × ℚ),
      lastInterval b c rest =
        ((lastTriple a b c rest).2.1, (lastTriple a b c rest).2.2) := by
  intro rest
  induction rest with
  | nil => intro a b c; rfl
  | cons d rest2 ih => intro a b c; exact ih b c d

theorem reverse_lastTriple :
    ∀ (rest : List (ℚ × ℚ)) (a b c : ℚ × ℚ), ∃ tail,
      (a :: b :: c :: rest).reverse =
        (lastTriple a b c rest).2.2 :: (lastTriple a b c rest).2.1 ::
          (lastTriple a b c rest).1 :: tail := by
  intro rest
  induction rest with
  | nil => intro a b c; exact ⟨[], by simp [lastTriple]⟩
  | cons d rest2 ih =>
      intro a b c
      obtain ⟨tail, htail⟩ := ih b c d
      refine ⟨tail ++ [a], ?_⟩
      have hrw : (a :: b :: c :: d :: rest2).reverse =
          (b :: c :: d :: rest2).reverse ++ [a] := by
        rw [List.reverse_cons]
      rw [hrw, htail]
      simp [lastTriple]

theorem segsOK_mid :
    ∀ (rest : List (ℚ × ℚ)) (a b : ℚ × ℚ) (da dl : ℚ),
      PtsChain (a :: b :: rest) →
      0 ≤ da → da * (b.1 - a.1) ≤ 3 * (b.2 - a.2) →
      0 ≤ dl →
      dl * ((lastInterval a b rest).2.1 - (lastInterval a b rest).1.1) ≤
        3 * ((lastInterval a b rest).2.2 - (lastInterval a b rest).1.2) →
      SegsOK (attachDerivs (a :: b :: rest) (da :: midDerivs a b rest ++ [dl])) := by
  intro rest
  induction rest with
  | nil =>
      intro a b da dl hch hda0 hda3 hdl0 hdl3
      obtain ⟨xa, ya⟩ := a
      obtain ⟨xb, yb⟩ := b
      exact ⟨hch.1, le_of_lt hch.2.1, hda0, hda3, hdl0, hdl3, trivial⟩
  | cons c rest2 ih =>
      intro a b da dl hch hda0 hda3 hdl0 hdl3
      have hxab : a.1 < b.1 := hch.1
      have hyab : a.2 < b.2 := hch.2.1
      have hxbc : b.1 < c.1 := hch.2.2.1
      have hybc : b.2 < c.2 := hch.2.2.2.1
      have hmb := interiorDeriv_bounds (b.1 - a.1) (slope a b) (c.1 - b.1) (slope b c)
        (by linarith) (by linarith) (slope_pos hxab hyab) (slope_pos hxbc hybc)
      have hd1_0 : 0 ≤ interiorDeriv (b.1 - a.1) (slope a b) (c.1 - b.1) (slope b c) :=
        hmb.1
      have hd1_ab : interiorDeriv (b.1 - a.1) (slope a b) (c.1 - b.1) (slope b c) *
          (b.1 - a.1) ≤ 3 * (b.2 - a.2) := le_three_slope_mul hxab hmb.2.1
      have hd1_bc : interiorDeriv (b.1 - a.1) (slope a b) (c.1 - b.1) (slope b c) *
          (c.1 - b.1) ≤ 3 * (c.2 - b.2) := le_three_slope_mul hxbc hmb.2.2
      have htail := ih b c
        (interiorDeriv (b.1 - a.1) (slope a b) (c.1 - b.1) (slope b c)) dl
        hch.2.2 hd1_0 hd1_bc hdl0 hdl3
      obtain ⟨xa, ya⟩ := a
      obtain ⟨xb, yb⟩ := b
      exact ⟨hxab, le_of_lt hyab, hda0, hda3, hd1_0, hd1_ab, htail⟩

theorem ptsChain_of_chains :
    ∀ (l : List (ℚ × ℚ)), List.Chain' (· < ·) (l.map Prod.fst) →
      List.Chain' (· < ·) (l.map Prod.snd) → PtsChain l := by
  intro l
  induction l with
  | nil => intro _ _; trivial
  | cons p tail ih =>
      cases tail with
      | nil => intro _ _; trivial
      | cons q rest =>
          intro hx hy
          rw [List.map_cons, List.map_cons, List.chain'_cons] at hx hy
          exact ⟨hx.1, hy.1, ih hx.2 hy.2⟩

theorem pchip_segsOK (pts : List (ℚ × ℚ)) (hch : PtsChain pts) (hlen : 2 ≤ pts.length) :
    SegsOK (attachDerivs pts (pchipDerivs pts)) := by
  rcases pts with _ | ⟨p0, _ | ⟨p1, _ | ⟨p2, rest⟩⟩⟩
  · simp at hlen
  · simp at hlen
  · obtain ⟨x0, y0⟩ := p0
    obtain ⟨x1, y1⟩ := p1
    have hx : x0 < x1 := hch.1
    have hy : y0 < y1 := hch.2.1
    have hslope : 0 < slope (x0, y0) (x1, y1) := slope_pos hx hy
    have hprod := le_three_slope_mul (p := (x0, y0)) (q := (x1, y1)) hx
      (by linarith : slope (x0, y0) (x1, y1) ≤ 3 * slope (x0, y0) (x1, y1))
    exact ⟨hx, hy.le, hslope.le, hprod, hslope.le, hprod, trivial⟩
  · have h01x : p0.1 < p1.1 := hch.1
    have h01y : p0.2 < p1.2 := hch.2.1
    have h12x : p1.1 < p2.1 := hch.2.2.1
    have h12y : p1.2 < p2.2 := hch.2.2.2.1
    have hedge0 := edgeCase_bounds (p1.1 - p0.1) (p2.1 - p1.1) (slope p0 p1)
      (slope p1 p2) (by linarith) (by linarith) (slope_pos h01x h01y)
      (slope_pos h12x h12y)
    obtain ⟨tail, hrev⟩ := reverse_lastTriple rest p0 p1 p2
    have hLT := lastTriple_facts rest p0 p1 p2 hch
    have hedgeL : edgeLast (p0 :: p1 :: p2 :: rest) =
        edgeCase ((lastTriple p0 p1 p2 rest).2.2.1 - (lastTriple p0 p1 p2 rest).2.1.1)
          ((lastTriple p0 p1 p2 rest).2.1.1 - (lastTriple p0 p1 p2 rest).1.1)
          (slope (lastTriple p0 p1 p2 rest).2.1 (lastTriple p0 p1 p2 rest).2.2)
          (slope (lastTriple p0 p1 p2 rest).1 (lastTriple p0 p1 p2 rest).2.1) := by
      simp only [edgeLast]
      rw [hrev]
    have hedgeLb := edgeCase_bounds
      ((lastTriple p0 p1 p2 rest).2.2.1 - (lastTriple p0 p1 p2 rest).2.1.1)
      ((lastTriple p0 p1 p2 rest).2.1.1 - (lastTriple p0 p1 p2 rest).1.1)
      (slope (lastTriple p0 p1 p2 rest).2.1 (lastTriple p0 p1 p2 rest).2.2)
      (slope (lastTriple p0 p1 p2 rest).1 (lastTriple p0 p1 p2 rest).2.1)
      (by linarith [hLT.2.2.1]) (by linarith [hLT.1])
      (slope_pos hLT.2.2.1 hLT.2.2.2) (slope_pos hLT.1 hLT.2.1)
    have hLI : lastInterval p0 p1 (p2 :: rest) =
        ((lastTriple p0 p1 p2 rest).2.1, (lastTriple p0 p1 p2 rest).2.2) :=
      lastInterval_eq_lastTriple rest p0 p1 p2
    apply segsOK_mid (p2 :: rest) p0 p1 _ _ hch hedge0.1
      (le_three_slope_mul h01x hedge0.2)
    · rw [hedgeL]
      exact hedgeLb.1
    · rw [hLI, hedgeL]
      exact le_three_slope_mul hLT.2.2.1 hedgeLb.2

theorem midDerivs_length : ∀ (rest : List (ℚ × ℚ)) (a b : ℚ × ℚ),
    (midDerivs a b rest).length = rest.length := by
  intro rest
  induction rest with
  | nil => intro a b; rfl
  | cons c rest2 ih => intro a b; simp [midDerivs, ih b c]

theorem pchipDerivs_length (pts : List (ℚ × ℚ)) (hlen : 2 ≤ pts.length) :
    (pchipDerivs pts).length = pts.length := by
  rcases pts with _ | ⟨p0, _ | ⟨p1, _ | ⟨p2, rest⟩⟩⟩
  · simp at hlen
  · simp at hlen
  · rfl
  · simp [pchipDerivs, midDerivs_length]

theorem attachDerivs_fst : ∀ (pts : List (ℚ × ℚ)) (ds : List ℚ),
    pts.length = ds.length →
    (attachDerivs pts ds).map (fun s => s.1) = pts.map Prod.fst := by
  intro pts
  induction pts with
  | nil => intro ds _; rfl
  | cons p tail ih =>
      intro ds h
      cases ds with
      | nil => simp at h
      | cons d ds2 =>
          obtain ⟨x, y⟩ := p
          rw [show attachDerivs ((x, y) :: tail) (d :: ds2) =
            (x, y, d) :: attachDerivs tail ds2 from rfl]
          rw [List.map_cons, List.map_cons, ih ds2 (by simpa using h)]

theorem segsOK_x_bounds : ∀ (l : List (ℚ × ℚ × ℚ)), SegsOK l →
    ∀ y ∈ l.map (fun s => s.1), headX l ≤ y ∧ y ≤ lastX l := by
  intro l
  induction l with
  | nil => intro _ y hy; simp at hy
  | cons s0 tail ih =>
      obtain ⟨x0, y0, d0⟩ := s0
      cases tail with
      | nil =>
          intro _ y hy
          simp only [List.map_cons, List.map_nil, List.mem_singleton] at hy
          subst hy
          exact ⟨le_refl _, le_refl _⟩
      | cons s1 rest =>
          obtain ⟨x1, y1, d1⟩ := s1
          intro hOK y hy
          have hx01 : x0 < x1 := hOK.1
          have hOKtail : SegsOK ((x1, y1, d1) :: rest) := hOK.2.2.2.2.2.2
          have hx1mem : x1 ∈ ((x1, y1, d1) :: rest).map (fun s => s.1) := by simp
          have hx1b := ih hOKtail x1 hx1mem
          rcases List.mem_cons.mp hy with hy0 | hytail
          · subst hy0
            refine ⟨le_refl _, ?_⟩
            show (y : ℚ) ≤ lastX ((y, y0, d0) :: (x1, y1, d1) :: rest)
            calc (y : ℚ) ≤ x1 := le_of_lt hx01
              _ ≤ lastX ((x1, y1, d1) :: rest) := hx1b.2
          · have hb := ih hOKtail y hytail
            exact ⟨le_of_lt (lt_of_lt_of_le hx01 (hb.1)), hb.2⟩

theorem foldl_min_mem : ∀ (xs : List ℚ) (a : ℚ), xs.foldl min a ∈ a :: xs := by
  intro xs
  induction xs with
  | nil => intro a; simp
  | cons x xs2 ih =>
      intro a
      have h := ih (min a x)
      rw [show (x :: xs2).foldl min a = xs2.foldl min (min a x) from rfl]
      rcases List.mem_cons.mp h with h1 | h1
      · rw [h1]
        rcases min_choice a x with hc | hc <;> rw [hc]
        · exact List.mem_cons_self a _
        · exact List.mem_cons_of_mem a (List.mem_cons_self x xs2)
      · exact List.mem_cons_of_mem a (List.mem_cons_of_mem x h1)

theorem foldl_max_mem : ∀ (xs : List ℚ) (a : ℚ), xs.foldl max a ∈ a :: xs := by
  intro xs
  induction xs with
  | nil => intro a; simp
  | cons x xs2 ih =>
      intro a
      have h := ih (max a x)
      rw [show (x :: xs2).foldl max a = xs2.foldl max (max a x) from rfl]
      rcases List.mem_cons.mp h with h1 | h1
      · rw [h1]
        rcases max_choice a x with hc | hc <;> rw [hc]
        · exact List.mem_cons_self a _
        · exact List.mem_cons_of_mem a (List.mem_cons_self x xs2)
      · exact List.mem_cons_of_mem a (List.mem_cons_of_mem x h1)

theorem colMin_mem (x : ℚ) (xs : List ℚ) : colMin (x :: xs) ∈ x :: xs :=
  foldl_min_mem xs x

theorem colMax_mem (x : ℚ) (xs : List ℚ) : colMax (x :: xs) ∈ x :: xs :=
  foldl_max_mem xs x

theorem chain'_map_intRangeAux (g : ℤ → ℚ) :
    ∀ (n : ℕ) (a : ℤ), (∀ t : ℤ, a ≤ t → t + 1 < a + n → g t ≤ g (t + 1)) →
      List.Chain' (· ≤ ·) ((intRangeAux a n).map g) := by
  intro n
  induction n with
  | zero => intro a _; simp [intRangeAux]
  | succ k ih =>
      intro a hg
      cases k with
      | zero => simp [intRangeAux]
      | succ j =>
          exact List.Chain'.cons (hg a le_rfl (by omega))
            (ih (a + 1) fun t ht hlt => hg t (by omega) (by omega))

/-- C7: for every valid observation set — temperatures strictly increasing, recovery
percents strictly increasing with temperature, at least 2 rows — the shape-preserving
fit succeeds and the sampled fitted Curve is nondecreasing in temperature across its
whole sampling grid. -/
theorem fitted_curve_monotone (profile : List Obs)
    (hlen : 2 ≤ profile.length)
    (hx : List.Chain' (· < ·) (profile.map (·.temperature)))
    (hy : List.Chain' (· < ·) (profile.map (·.recovery))) :
    ∃ interp, get_recovery_interpolation profile = .ok interp ∧
      List.Chain' (· ≤ ·) (interp.map (·.2)) := by
  rcases profile with _ | ⟨o0, profile'⟩
  · simp at hlen
  set profile := o0 :: profile' with hprofile
  set pts := profile.map fun o => (o.temperature, (o.recovery : ℚ)) with hptsdef
  have hfst : pts.map Prod.fst = profile.map (·.temperature) := by
    rw [hptsdef, List.map_map]
    rfl
  have hsnd : pts.map Prod.snd = (profile.map (·.recovery)).map (fun z : ℤ => (z : ℚ)) := by
    rw [hptsdef, List.map_map, List.map_map]
    rfl
  have hxq : List.Chain' (· < ·) (pts.map Prod.fst) := by rw [hfst]; exact hx
  have hyq : List.Chain' (· < ·) (pts.map Prod.snd) := by
    rw [hsnd, List.chain'_map]
    exact hy.imp fun a b h => Int.cast_lt.mpr h
  have hplen : 2 ≤ pts.length := by
    rw [hptsdef, List.length_map]
    exact hlen
  set segs := attachDerivs pts (pchipDerivs pts) with hsegs
  have hfit : pchipFit pts = .ok segs := by
    unfold pchipFit
    rw [if_neg (by omega), if_neg (not_not_intro hxq)]
  have hOK : SegsOK segs := pchip_segsOK pts (ptsChain_of_chains pts hxq hyq) hplen
  have hxlist : segs.map (fun s => s.1) = profile.map (·.temperature) := by
    rw [hsegs, attachDerivs_fst pts (pchipDerivs pts) (pchipDerivs_length pts hplen).symm,
      hfst]
  have hslen : 2 ≤ segs.length := by
    have hl := congrArg List.length hxlist
    rw [List.length_map, List.length_map] at hl
    omega
  have hminmem : colMin (profile.map (·.temperature)) ∈ profile.map (·.temperature) := by
    rw [hprofile]
    exact colMin_mem _ _
  have hmaxmem : colMax (profile.map (·.temperature)) ∈ profile.map (·.temperature) := by
    rw [hprofile]
    exact colMax_mem _ _
  refine ⟨(get_discrete_temperature_range profile).map
      (fun t => (t, evalSegments segs (t : ℚ))), ?_, ?_⟩
  · unfold get_recovery_interpolation
    have hchecked : get_discrete_temperature_range_checked profile =
        .ok (get_discrete_temperature_range profile) := by
      rw [hprofile]
      rfl
    rw [hchecked]
    simp only [Bind.bind, Except.bind]
    rw [hfit]
    rfl
  · rw [List.map_map]
    unfold get_discrete_temperature_range intRange
    apply chain'_map_intRangeAux
    intro t ht htop
    have htB : t + 1 < ⌊colMax (profile.map (·.temperature))⌋ := by omega
    show evalSegments segs ((t : ℤ) : ℚ) ≤ evalSegments segs (((t + 1 : ℤ) : ℤ) : ℚ)
    apply evalSegments_mono segs ((t : ℤ) : ℚ) (((t + 1 : ℤ) : ℤ) : ℚ) hOK hslen
    · have hhead := (segsOK_x_bounds segs hOK (colMin (profile.map (·.temperature)))
        (by rw [hxlist]; exact hminmem)).1
      calc headX segs ≤ colMin (profile.map (·.temperature)) := hhead
        _ ≤ (⌈colMin (profile.map (·.temperature))⌉ : ℚ) := Int.le_ceil _
        _ ≤ ((t : ℤ) : ℚ) := by exact_mod_cast ht
    · exact_mod_cast (by omega : t ≤ t + 1)
    · have hlast := (segsOK_x_bounds segs hOK (colMax (profile.map (·.temperature)))
        (by rw [hxlist]; exact hmaxmem)).2
      calc (((t + 1 : ℤ) : ℤ) : ℚ) ≤ (⌊colMax (profile.map (·.temperature))⌋ : ℚ) := by
            exact_mod_cast htB.le
        _ ≤ colMax (profile.map (·.temperature)) := Int.floor_le _
        _ ≤ lastX segs := hlast

/-- Witness for C7: a concrete strictly increasing three-point profile. -/
theorem fitted_curve_monotone_witness :
    ∃ interp, get_recovery_interpolation [⟨0, 1/2⟩, ⟨50, 3/2⟩, ⟨100, 7/2⟩] = .ok interp ∧
      List.Chain' (· ≤ ·) (interp.map (·.2)) :=
  fitted_curve_monotone [⟨0, 1/2⟩, ⟨50, 3/2⟩, ⟨100, 7/2⟩] (by norm_num)
    (by norm_num [List.chain'_cons]) (by norm_num [List.chain'_cons])

end ProfileBuilder
